import Mathlib

/-
Verification of the Minesweeper game-state engine.

The definitions below are a shallow embedding of the C++ sources:
  - cell.h        : MarkState, Cell
  - board.cpp     : Board and its operations
  - minesweeperwindow.cpp : revealCell, cascadeReveal, the mark cycle,
                    the left-click guard and the loss display pass
The 2-D QVector of cells is embedded as a total function from integer
coordinates to cells (C++ int coordinates become Lean Int); the board
dimensions are kept alongside.  Randomness (std::rand) is embedded as an
explicit stream of naturals, and the unbounded rejection-sampling loop of
Board::initialize carries explicit fuel, returning none when the fuel runs
out.  The breadth-first cascade is defined by well-founded recursion on
the number of unrevealed in-grid cells plus the queue length.
-/

/-- Embeds the MarkState enum of cell.h: None, Flag, Question. -/
inductive MarkState where
  | None
  | Flag
  | Question
deriving DecidableEq, Repr

/-- Embeds the Cell class of cell.h: a mine flag, a revealed flag and a mark. -/
structure Cell where
  hasMine : Bool
  revealed : Bool
  mark : MarkState
deriving DecidableEq, Repr

/-- Embeds Cell::reset and the default constructor: no mine, hidden, no mark. -/
def Cell.reset : Cell := ⟨false, false, MarkState.None⟩

/-- Embeds the Board class of board.h: dimensions, requested mine count and
the 2-D cell container m_cells (as a total function on Int coordinates). -/
structure Board where
  width : Nat
  height : Nat
  mineCount : Nat
  cells : Int → Int → Cell

/-- Embeds Board::inBounds: 0 <= row < height and 0 <= col < width. -/
def Board.inBounds (b : Board) (row col : Int) : Bool :=
  decide (0 ≤ row ∧ row < (b.height : Int) ∧ 0 ≤ col ∧ col < (b.width : Int))

/-- Embeds Board::isMine: reads m_cells[row][col].hasMine(). -/
def Board.isMine (b : Board) (row col : Int) : Bool :=
  (b.cells row col).hasMine

/-- Embeds Board::isRevealed: reads m_cells[row][col].isRevealed(). -/
def Board.isRevealed (b : Board) (row col : Int) : Bool :=
  (b.cells row col).revealed

/-- Embeds Board::markState: reads m_cells[row][col].markState(). -/
def Board.markState (b : Board) (row col : Int) : MarkState :=
  (b.cells row col).mark

/-- Updates the single cell at (row, col) of the cell container. -/
def Board.setCell (b : Board) (row col : Int) (v : Cell) : Board :=
  { b with cells := fun r c => if r = row ∧ c = col then v else b.cells r c }

/-- Embeds Board::setMine: writes m_cells[row][col].setMine(m). -/
def Board.setMine (b : Board) (row col : Int) (m : Bool) : Board :=
  b.setCell row col { b.cells row col with hasMine := m }

/-- Embeds Board::setRevealed: writes m_cells[row][col].setRevealed(r). -/
def Board.setRevealed (b : Board) (row col : Int) (r : Bool) : Board :=
  b.setCell row col { b.cells row col with revealed := r }

/-- Embeds Board::setMarkState: writes m_cells[row][col].setMarkState(s). -/
def Board.setMarkState (b : Board) (row col : Int) (s : MarkState) : Board :=
  b.setCell row col { b.cells row col with mark := s }

/-- Enumerates the offsets of the double loop dr, dc in {-1,0,1} of
Board::neighborMineCount and MinesweeperWindow::cascadeReveal, with the
skipped centre (0,0) removed, in the order the loops visit them. -/
def mooreOffsets : List (Int × Int) :=
  [(-1, -1), (-1, 0), (-1, 1), (0, -1), (0, 1), (1, -1), (1, 0), (1, 1)]

/-- Embeds Board::neighborMineCount: counts the in-bounds Moore neighbours
of (row, col) that hold a mine. -/
def Board.neighborMineCount (b : Board) (row col : Int) : Nat :=
  mooreOffsets.countP (fun d => b.inBounds (row + d.1) (col + d.2) &&
    b.isMine (row + d.1) (col + d.2))

/-- Enumerates the in-grid coordinates in the row-major order walked by the
double loops of Board::initialize, Board::allNonMinesRevealed and
MinesweeperWindow::gameOver. -/
def coordList (b : Board) : List (Int × Int) :=
  (List.range b.height).flatMap (fun (r : Nat) =>
    (List.range b.width).map (fun (c : Nat) => ((r : Int), (c : Int))))

/-- Embeds Board::allNonMinesRevealed: every in-grid cell is mined or
revealed. -/
def Board.allNonMinesRevealed (b : Board) : Bool :=
  (coordList b).all (fun p => (b.cells p.1 p.2).hasMine || (b.cells p.1 p.2).revealed)

/-- Counts the in-grid cells that are not yet revealed (the termination
measure of the cascade). -/
def unrevealedCount (b : Board) : Nat :=
  (coordList b).countP (fun p => !(b.cells p.1 p.2).revealed)

/-- Counts the in-grid cells that hold a mine. -/
def minedCount (b : Board) : Nat :=
  (coordList b).countP (fun p => (b.cells p.1 p.2).hasMine)

/-- Membership in the coordinate enumeration is exactly in-bounds. -/
lemma mem_coordList {b : Board} {p : Int × Int} :
    p ∈ coordList b ↔ b.inBounds p.1 p.2 = true := by
  obtain ⟨x, y⟩ := p
  simp only [coordList, List.mem_flatMap, List.mem_map, List.mem_range, Board.inBounds,
    decide_eq_true_eq, Prod.mk.injEq]
  constructor
  · rintro ⟨r, hr, c, ⟨hc, rfl, rfl⟩⟩
    refine ⟨by omega, by omega, by omega, by omega⟩
  · rintro ⟨h1, h2, h3, h4⟩
    exact ⟨x.toNat, by omega, y.toNat, by omega, by omega, by omega⟩

/-- The coordinate enumeration lists each coordinate once. -/
lemma nodup_coordList (b : Board) : (coordList b).Nodup := by
  rw [coordList, List.nodup_flatMap]
  constructor
  · intro r _
    exact (List.nodup_range b.width).map (by intro x y h; simpa using h)
  · rw [List.pairwise_iff_forall_sublist]
    intro r s hsub
    have hnd : [r, s].Nodup := hsub.nodup (List.nodup_range b.height)
    have hrs : r ≠ s := by simpa using (List.nodup_cons.mp hnd).1
    simp only [Function.onFun, List.disjoint_left, List.mem_map, List.mem_range,
      Prod.mk.injEq]
    rintro ⟨x, y⟩ ⟨c, _, hc1, hc2⟩ ⟨c', _, hc1', hc2'⟩
    exact hrs (by omega)

/-- Counting with a predicate that flips from false to true on one list
element raises the count by exactly one. -/
lemma countP_flip {α : Type} (p q : α → Bool) (x : α) :
    ∀ l : List α, l.Nodup → x ∈ l → (∀ y ∈ l, y ≠ x → p y = q y) →
      p x = true → q x = false → l.countP q + 1 = l.countP p := by
  intro l
  induction l with
  | nil => intro _ hx; cases hx
  | cons a l ih =>
    intro hnd hx hagree hpx hqx
    rcases List.mem_cons.mp hx with hax | hxl
    · subst hax
      have hxnotl : x ∉ l := (List.nodup_cons.mp hnd).1
      have : l.countP q = l.countP p := by
        apply List.countP_congr
        intro y hy
        rw [hagree y (List.mem_cons_of_mem _ hy) (fun hyx => hxnotl (hyx ▸ hy))]
      simp [List.countP_cons, hpx, hqx, this]
    · have hax : a ≠ x := by
        rintro rfl
        exact (List.nodup_cons.mp hnd).1 hxl
      have hpa : p a = q a := hagree a (List.mem_cons_self a l) hax
      have := ih (List.nodup_cons.mp hnd).2 hxl
        (fun y hy hyx => hagree y (List.mem_cons_of_mem _ hy) hyx) hpx hqx
      simp [List.countP_cons, ← hpa]
      omega

/-- Writing a cell leaves the dimension fields alone, so the coordinate
enumeration is unchanged. -/
lemma coordList_setCell (b : Board) (row col : Int) (v : Cell) :
    coordList (b.setCell row col v) = coordList b := rfl

/-- Reading back the cell container after Board::setRevealed. -/
lemma setRevealed_cells (b : Board) (row col : Int) (r : Bool) (x y : Int) :
    (b.setRevealed row col r).cells x y =
      if x = row ∧ y = col then { b.cells row col with revealed := r }
      else b.cells x y := rfl

/-- Reading back the cell container after Board::setMine. -/
lemma setMine_cells (b : Board) (row col : Int) (m : Bool) (x y : Int) :
    (b.setMine row col m).cells x y =
      if x = row ∧ y = col then { b.cells row col with hasMine := m }
      else b.cells x y := rfl

/-- Reading back the cell container after Board::setMarkState. -/
lemma setMarkState_cells (b : Board) (row col : Int) (s : MarkState) (x y : Int) :
    (b.setMarkState row col s).cells x y =
      if x = row ∧ y = col then { b.cells row col with mark := s }
      else b.cells x y := rfl

/-- Board::setRevealed keeps every mine flag. -/
lemma setRevealed_hasMine (b : Board) (row col : Int) (r : Bool) (x y : Int) :
    ((b.setRevealed row col r).cells x y).hasMine = (b.cells x y).hasMine := by
  rw [setRevealed_cells]
  split <;> rename_i h
  · obtain ⟨rfl, rfl⟩ := h
    rfl
  · rfl

/-- Board::setRevealed keeps every mark. -/
lemma setRevealed_mark (b : Board) (row col : Int) (r : Bool) (x y : Int) :
    ((b.setRevealed row col r).cells x y).mark = (b.cells x y).mark := by
  rw [setRevealed_cells]
  split <;> rename_i h
  · obtain ⟨rfl, rfl⟩ := h
    rfl
  · rfl

/-- Board::setRevealed only touches the addressed cell's revealed flag. -/
lemma setRevealed_revealed (b : Board) (row col : Int) (r : Bool) (x y : Int) :
    ((b.setRevealed row col r).cells x y).revealed =
      if x = row ∧ y = col then r else (b.cells x y).revealed := by
  rw [setRevealed_cells]
  split <;> rfl

/-- Board::setRevealed leaves dimensions alone, so in-bounds is unchanged. -/
lemma setRevealed_inBounds (b : Board) (row col : Int) (r : Bool) (x y : Int) :
    (b.setRevealed row col r).inBounds x y = b.inBounds x y := rfl

/-- A board with the same dimensions and the same mine flags yields the same
neighbour mine counts. -/
lemma neighborMineCount_congr (b b' : Board)
    (hw : b'.width = b.width) (hh : b'.height = b.height)
    (hm : ∀ x y, (b'.cells x y).hasMine = (b.cells x y).hasMine) (row col : Int) :
    b'.neighborMineCount row col = b.neighborMineCount row col := by
  unfold Board.neighborMineCount
  apply List.countP_congr
  intro d _
  unfold Board.inBounds Board.isMine
  rw [hw, hh, hm]

/-- Board::setRevealed never changes a neighbour mine count. -/
lemma neighborMineCount_setRevealed (b : Board) (row col : Int) (r : Bool) (x y : Int) :
    (b.setRevealed row col r).neighborMineCount x y = b.neighborMineCount x y :=
  neighborMineCount_congr b (b.setRevealed row col r) rfl rfl
    (setRevealed_hasMine b row col r) x y

/-- Revealing a hidden in-grid cell lowers the unrevealed-cell measure by
exactly one. -/
lemma unrevealedCount_setRevealed (b : Board) (row col : Int)
    (hin : b.inBounds row col = true) (hrev : b.isRevealed row col = false) :
    unrevealedCount (b.setRevealed row col true) + 1 = unrevealedCount b := by
  unfold unrevealedCount
  rw [show coordList (b.setRevealed row col true) = coordList b from rfl]
  apply countP_flip _ _ (row, col) _ (nodup_coordList b) (mem_coordList.mpr hin)
  · intro y hy hyx
    simp only [setRevealed_revealed]
    rw [if_neg]
    intro ⟨h1, h2⟩
    exact hyx (Prod.ext h1 h2)
  · unfold Board.isRevealed at hrev
    simp [hrev]
  · simp [setRevealed_revealed]

/-- Embeds the inner neighbour loop of MinesweeperWindow::cascadeReveal for
one dequeued point p: walks the given offsets in loop order; an in-bounds,
unrevealed, non-flagged neighbour is revealed (and recorded in the third
component), and additionally enqueued (recorded in the second component)
when its own neighbour mine count is zero.  Returns the mutated board, the
newly enqueued points and the newly revealed points, in visit order. -/
def processNbrs (b : Board) (p : Int × Int) :
    List (Int × Int) → Board × List (Int × Int) × List (Int × Int)
  | [] => (b, [], [])
  | d :: ds =>
    let rr := p.1 + d.1
    let cc := p.2 + d.2
    if b.inBounds rr cc = true ∧ b.isRevealed rr cc = false ∧
        b.markState rr cc ≠ MarkState.Flag then
      let b1 := b.setRevealed rr cc true
      if b1.neighborMineCount rr cc = 0 then
        let rest := processNbrs b1 p ds
        (rest.1, (rr, cc) :: rest.2.1, (rr, cc) :: rest.2.2)
      else
        let rest := processNbrs b1 p ds
        (rest.1, rest.2.1, (rr, cc) :: rest.2.2)
    else
      processNbrs b p ds

/-- Processing the neighbours of one point lowers the sum of the
unrevealed-cell measure and the number of newly enqueued points (each
enqueue is paid for by a fresh reveal). -/
lemma processNbrs_measure (ds : List (Int × Int)) (b : Board) (p : Int × Int) :
    unrevealedCount (processNbrs b p ds).1 + (processNbrs b p ds).2.1.length ≤
      unrevealedCount b := by
  induction ds generalizing b with
  | nil => simp [processNbrs]
  | cons d ds ih =>
    simp only [processNbrs]
    split <;> rename_i h
    · obtain ⟨hin, hrev, _⟩ := h
      have hdec := unrevealedCount_setRevealed b (p.1 + d.1) (p.2 + d.2) hin hrev
      split
      all_goals
        have := ih (b.setRevealed (p.1 + d.1) (p.2 + d.2) true)
        dsimp only
        try simp only [List.length_cons]
        omega
    · exact ih b

/-- Embeds the while-loop of MinesweeperWindow::cascadeReveal: pops the
front of the queue, processes its neighbours, and appends the newly
enqueued zero-count points to the queue.  Returns the final board together
with the accumulated enqueue trace and reveal trace.  Recursion is
well-founded because every enqueue is paid for by a reveal of a previously
unrevealed in-grid cell. -/
def cascadeLoop (b : Board) (q : List (Int × Int)) :
    Board × List (Int × Int) × List (Int × Int) :=
  match q with
  | [] => (b, [], [])
  | p :: rest =>
    let r1 := processNbrs b p mooreOffsets
    let r2 := cascadeLoop r1.1 (rest ++ r1.2.1)
    (r2.1, r1.2.1 ++ r2.2.1, r1.2.2 ++ r2.2.2)
termination_by unrevealedCount b + q.length
decreasing_by
  simp_wf
  have h := processNbrs_measure mooreOffsets b d
  omega

/-- Embeds MinesweeperWindow::cascadeReveal: pushes the start point and
runs the loop.  The second component is the full enqueue trace (the
initial push of the start point included) and the third the reveal
trace. -/
def cascadeReveal (b : Board) (startRow startCol : Int) :
    Board × List (Int × Int) × List (Int × Int) :=
  ((cascadeLoop b [(startRow, startCol)]).1,
   (startRow, startCol) :: (cascadeLoop b [(startRow, startCol)]).2.1,
   (cascadeLoop b [(startRow, startCol)]).2.2)

/-- Embeds the per-reveal outcome reported to the caller: the game either
continues, is won (all non-mine cells revealed) or is lost (mine hit). -/
inductive Outcome where
  | Continue
  | Win
  | Loss
deriving DecidableEq, Repr

/-- Embeds the body of the loss loop of MinesweeperWindow::gameOver: a
mined cell is set revealed, any other cell is left alone. -/
def revealMinesStep (acc : Board) (p : Int × Int) : Board :=
  if acc.isMine p.1 p.2 = true then acc.setRevealed p.1 p.2 true else acc

/-- Embeds the grid walk of MinesweeperWindow::gameOver(false): fold the
per-cell step over every in-grid coordinate. -/
def gameOverLoss (b : Board) : Board :=
  (coordList b).foldl revealMinesStep b

/-- Embeds MinesweeperWindow::revealCell together with checkWinCondition:
a mine is revealed and the loss display pass runs (gameOver(false));
otherwise the cell is revealed, a zero-neighbour-count cell starts the
cascade, and the outcome is Win exactly when allNonMinesRevealed holds
afterwards. -/
def revealCell (b : Board) (row col : Int) : Board × Outcome :=
  if b.isMine row col = true then
    (gameOverLoss (b.setRevealed row col true), Outcome.Loss)
  else
    let b1 := b.setRevealed row col true
    let b2 := if b1.neighborMineCount row col = 0 then (cascadeReveal b1 row col).1 else b1
    (b2, if b2.allNonMinesRevealed = true then Outcome.Win else Outcome.Continue)

/-- Embeds MinesweeperWindow::onCellLeftClicked: an already revealed or
flagged cell is left alone (the game simply continues), otherwise the cell
is revealed. -/
def onCellLeftClicked (b : Board) (row col : Int) : Board × Outcome :=
  if b.isRevealed row col = true ∨ b.markState row col = MarkState.Flag then
    (b, Outcome.Continue)
  else
    revealCell b row col

/-- Embeds the switch of MinesweeperWindow::eventFilter on the current
mark: None to Flag to Question to None. -/
def cycleMark : MarkState → MarkState
  | MarkState.None => MarkState.Flag
  | MarkState.Flag => MarkState.Question
  | MarkState.Question => MarkState.None

/-- Embeds the right-click branch of MinesweeperWindow::eventFilter: the
addressed cell's mark is cycled, with no check of its revealed flag. -/
def cycleMarkCmd (b : Board) (row col : Int) : Board :=
  b.setMarkState row col (cycleMark (b.markState row col))

/-- Embeds step 1 of Board::initialize: every cell is reset to its default
state. -/
def resetAll (b : Board) : Board :=
  { b with cells := fun _ _ => Cell.reset }

/-- Embeds the mine-placement loop of Board::initialize: while fewer than
mineCount mines are placed, draw a row and a column from the random
stream (std::rand() % height, std::rand() % width) and place a mine if the
drawn cell has none.  The loop of the source is unbounded; the embedding
spends one unit of fuel per iteration and returns none when the fuel is
exhausted. -/
def placeMines (stream : Nat → Nat) : Nat → Board → Nat → Nat → Option Board
  | fuel, b, k, placed =>
    if placed < b.mineCount then
      match fuel with
      | 0 => none
      | fuel' + 1 =>
        let rr : Int := ((stream k) % b.height : Nat)
        let cc : Int := ((stream (k + 1)) % b.width : Nat)
        if b.isMine rr cc = true then
          placeMines stream fuel' b (k + 2) placed
        else
          placeMines stream fuel' (b.setMine rr cc true) (k + 2) (placed + 1)
    else some b

/-- Embeds Board::initialize: reset all cells, then place the mines by
rejection sampling over the random stream. -/
def initializeBoard (b : Board) (stream : Nat → Nat) (fuel : Nat) : Option Board :=
  placeMines stream fuel (resetAll b) 0 0

/-- Models QVector indexed access (operator[]): a value for an index inside
the vector, none where the Qt documentation leaves the behaviour
undefined.  Board::isMine and its sibling accessors index m_cells this way
without any bounds check. -/
def qvGet {α : Type} (xs : List α) (i : Int) : Option α :=
  if h : 0 ≤ i ∧ i < (xs.length : Int) then some (xs.get ⟨i.toNat, by omega⟩) else none

/-- Models the unchecked double indexing m_cells[row][col] shared by
Board::isMine, isRevealed, markState, setMine, setRevealed and
setMarkState: the result is defined only when both indexes are inside
their vectors. -/
def cellAtQ (cells : List (List Cell)) (row col : Int) : Option Cell :=
  (qvGet cells row).bind (fun rw => qvGet rw col)

/-- Models Board::isMine on the QVector representation. -/
def isMineQ (cells : List (List Cell)) (row col : Int) : Option Bool :=
  (cellAtQ cells row col).map Cell.hasMine

/-- Models Board::isRevealed on the QVector representation. -/
def isRevealedQ (cells : List (List Cell)) (row col : Int) : Option Bool :=
  (cellAtQ cells row col).map Cell.revealed

/-- Models Board::markState on the QVector representation. -/
def markStateQ (cells : List (List Cell)) (row col : Int) : Option MarkState :=
  (cellAtQ cells row col).map Cell.mark

/-- The neighbour pass keeps the board width. -/
lemma processNbrs_width (ds : List (Int × Int)) (b : Board) (p : Int × Int) :
    (processNbrs b p ds).1.width = b.width := by
  induction ds generalizing b with
  | nil => rfl
  | cons d ds ih =>
    simp only [processNbrs]
    split
    · split <;> exact ih _
    · exact ih b

/-- The neighbour pass keeps the board height. -/
lemma processNbrs_height (ds : List (Int × Int)) (b : Board) (p : Int × Int) :
    (processNbrs b p ds).1.height = b.height := by
  induction ds generalizing b with
  | nil => rfl
  | cons d ds ih =>
    simp only [processNbrs]
    split
    · split <;> exact ih _
    · exact ih b

/-- The neighbour pass keeps every mine flag. -/
lemma processNbrs_hasMine (ds : List (Int × Int)) (b : Board) (p : Int × Int) (x y : Int) :
    ((processNbrs b p ds).1.cells x y).hasMine = (b.cells x y).hasMine := by
  induction ds generalizing b with
  | nil => rfl
  | cons d ds ih =>
    simp only [processNbrs]
    split
    · split <;> · dsimp only; rw [ih]; exact setRevealed_hasMine ..
    · exact ih b

/-- The neighbour pass keeps every mark. -/
lemma processNbrs_mark (ds : List (Int × Int)) (b : Board) (p : Int × Int) (x y : Int) :
    ((processNbrs b p ds).1.cells x y).mark = (b.cells x y).mark := by
  induction ds generalizing b with
  | nil => rfl
  | cons d ds ih =>
    simp only [processNbrs]
    split
    · split <;> · dsimp only; rw [ih]; exact setRevealed_mark ..
    · exact ih b

/-- The neighbour pass keeps every neighbour mine count. -/
lemma processNbrs_count (ds : List (Int × Int)) (b : Board) (p : Int × Int) (x y : Int) :
    (processNbrs b p ds).1.neighborMineCount x y = b.neighborMineCount x y :=
  neighborMineCount_congr b (processNbrs b p ds).1 (processNbrs_width ds b p)
    (processNbrs_height ds b p) (fun x y => processNbrs_hasMine ds b p x y) x y

/-- The neighbour pass keeps in-bounds checks. -/
lemma processNbrs_inBounds (ds : List (Int × Int)) (b : Board) (p : Int × Int) (x y : Int) :
    (processNbrs b p ds).1.inBounds x y = b.inBounds x y := by
  unfold Board.inBounds
  rw [processNbrs_width, processNbrs_height]

/-- The neighbour pass never hides a revealed cell. -/
lemma processNbrs_rev_mono (ds : List (Int × Int)) (b : Board) (p : Int × Int) (x y : Int)
    (h : b.isRevealed x y = true) : (processNbrs b p ds).1.isRevealed x y = true := by
  induction ds generalizing b with
  | nil => exact h
  | cons d ds ih =>
    simp only [processNbrs]
    split
    · split <;>
      · dsimp only
        apply ih
        unfold Board.isRevealed at h ⊢
        rw [setRevealed_revealed]
        split <;> simp [h]
    · exact ih b h

/-- A cell not on the reveal trace of the neighbour pass keeps its
revealed flag. -/
lemma processNbrs_rev_frame (ds : List (Int × Int)) (b : Board) (p : Int × Int)
    (x y : Int) (h : (x, y) ∉ (processNbrs b p ds).2.2) :
    (processNbrs b p ds).1.isRevealed x y = b.isRevealed x y := by
  induction ds generalizing b with
  | nil => rfl
  | cons d ds ih =>
    simp only [processNbrs] at h ⊢
    by_cases hc : b.inBounds (p.1 + d.1) (p.2 + d.2) = true ∧
        b.isRevealed (p.1 + d.1) (p.2 + d.2) = false ∧
        b.markState (p.1 + d.1) (p.2 + d.2) ≠ MarkState.Flag
    · rw [if_pos hc] at h ⊢
      have hne : (x, y) ≠ (p.1 + d.1, p.2 + d.2) := by
        by_cases hz : (b.setRevealed (p.1 + d.1) (p.2 + d.2) true).neighborMineCount
            (p.1 + d.1) (p.2 + d.2) = 0
        · rw [if_pos hz] at h
          dsimp only at h
          exact fun he => h (by rw [he]; exact List.mem_cons_self ..)
        · rw [if_neg hz] at h
          dsimp only at h
          exact fun he => h (by rw [he]; exact List.mem_cons_self ..)
      have hxy : (b.setRevealed (p.1 + d.1) (p.2 + d.2) true).isRevealed x y =
          b.isRevealed x y := by
        unfold Board.isRevealed
        rw [setRevealed_revealed, if_neg]
        intro ⟨h1, h2⟩
        exact hne (Prod.ext h1 h2)
      by_cases hz : (b.setRevealed (p.1 + d.1) (p.2 + d.2) true).neighborMineCount
          (p.1 + d.1) (p.2 + d.2) = 0
      all_goals
        first
        | rw [if_pos hz] at h ⊢
        | rw [if_neg hz] at h ⊢
      all_goals
        dsimp only at h ⊢
        rw [ih _ (fun hm => h (List.mem_cons_of_mem _ hm)), hxy]
    · rw [if_neg hc] at h ⊢
      exact ih b h

/-- Every cell on the reveal trace of the neighbour pass is a neighbour of
the processed point, was in bounds, unrevealed and not flagged on entry,
and is revealed afterwards. -/
lemma processNbrs_mem_rT (ds : List (Int × Int)) (b : Board) (p : Int × Int)
    (q : Int × Int) (h : q ∈ (processNbrs b p ds).2.2) :
    (∃ d ∈ ds, q = (p.1 + d.1, p.2 + d.2)) ∧ b.inBounds q.1 q.2 = true ∧
      b.isRevealed q.1 q.2 = false ∧ b.markState q.1 q.2 ≠ MarkState.Flag ∧
      (processNbrs b p ds).1.isRevealed q.1 q.2 = true := by
  induction ds generalizing b with
  | nil => cases h
  | cons d ds ih =>
    simp only [processNbrs] at h ⊢
    by_cases hc : b.inBounds (p.1 + d.1) (p.2 + d.2) = true ∧
        b.isRevealed (p.1 + d.1) (p.2 + d.2) = false ∧
        b.markState (p.1 + d.1) (p.2 + d.2) ≠ MarkState.Flag
    · obtain ⟨hin, hrev, hflag⟩ := hc
      rw [if_pos ⟨hin, hrev, hflag⟩] at h ⊢
      have hstep : q ∈ (processNbrs (b.setRevealed (p.1 + d.1) (p.2 + d.2) true)
          p ds).2.2 →
          (∃ e ∈ d :: ds, q = (p.1 + e.1, p.2 + e.2)) ∧ b.inBounds q.1 q.2 = true ∧
          b.isRevealed q.1 q.2 = false ∧ b.markState q.1 q.2 ≠ MarkState.Flag ∧
          (processNbrs (b.setRevealed (p.1 + d.1) (p.2 + d.2) true) p ds).1.isRevealed
            q.1 q.2 = true := by
        intro hq
        obtain ⟨⟨e, he, heq⟩, h1, h2, h3, h4⟩ := ih _ hq
        refine ⟨⟨e, List.mem_cons_of_mem _ he, heq⟩, ?_, ?_, ?_, h4⟩
        · rwa [setRevealed_inBounds] at h1
        · unfold Board.isRevealed at h2 ⊢
          rw [setRevealed_revealed] at h2
          split at h2
          · cases h2
          · exact h2
        · unfold Board.markState at h3 ⊢
          rwa [setRevealed_mark] at h3
      have hhead : q = (p.1 + d.1, p.2 + d.2) →
          (∃ e ∈ d :: ds, q = (p.1 + e.1, p.2 + e.2)) ∧ b.inBounds q.1 q.2 = true ∧
          b.isRevealed q.1 q.2 = false ∧ b.markState q.1 q.2 ≠ MarkState.Flag := by
        intro hq
        subst hq
        exact ⟨⟨d, List.mem_cons_self .., rfl⟩, hin, hrev, hflag⟩
      have hheadrev : ∀ b2 : Board, (∀ x y, b2.isRevealed x y = true →
            (processNbrs b2 p ds).1.isRevealed x y = true) →
          q = (p.1 + d.1, p.2 + d.2) →
          (processNbrs (b.setRevealed (p.1 + d.1) (p.2 + d.2) true) p ds).1.isRevealed
            q.1 q.2 = true := by
        intro _ _ hq
        subst hq
        apply processNbrs_rev_mono
        unfold Board.isRevealed
        rw [setRevealed_revealed]
        simp
      by_cases hz : (b.setRevealed (p.1 + d.1) (p.2 + d.2) true).neighborMineCount
          (p.1 + d.1) (p.2 + d.2) = 0
      all_goals
        first
        | rw [if_pos hz] at h ⊢
        | rw [if_neg hz] at h ⊢
      all_goals
        dsimp only at h ⊢
        rcases List.mem_cons.mp h with hq | hq
      · obtain ⟨he, h1, h2, h3⟩ := hhead hq
        exact ⟨he, h1, h2, h3, hheadrev b (fun x y => processNbrs_rev_mono ds b p x y) hq⟩
      · exact hstep hq
      · obtain ⟨he, h1, h2, h3⟩ := hhead hq
        exact ⟨he, h1, h2, h3, hheadrev b (fun x y => processNbrs_rev_mono ds b p x y) hq⟩
      · exact hstep hq
    · rw [if_neg hc] at h ⊢
      obtain ⟨⟨e, he', heq⟩, h1, h2, h3, h4⟩ := ih b h
      exact ⟨⟨e, List.mem_cons_of_mem _ he', heq⟩, h1, h2, h3, h4⟩

/-- The enqueue trace of the neighbour pass is a sub-sequence of its reveal
trace: the source only pushes a point right after revealing it. -/
lemma processNbrs_pT_sublist (ds : List (Int × Int)) (b : Board) (p : Int × Int) :
    (processNbrs b p ds).2.1.Sublist (processNbrs b p ds).2.2 := by
  induction ds generalizing b with
  | nil => exact List.Sublist.refl _
  | cons d ds ih =>
    simp only [processNbrs]
    by_cases hc : b.inBounds (p.1 + d.1) (p.2 + d.2) = true ∧
        b.isRevealed (p.1 + d.1) (p.2 + d.2) = false ∧
        b.markState (p.1 + d.1) (p.2 + d.2) ≠ MarkState.Flag
    · rw [if_pos hc]
      by_cases hz : (b.setRevealed (p.1 + d.1) (p.2 + d.2) true).neighborMineCount
          (p.1 + d.1) (p.2 + d.2) = 0
      · rw [if_pos hz]
        exact (ih _).cons₂ _
      · rw [if_neg hz]
        exact (ih _).cons _
    · rw [if_neg hc]
      exact ih b

/-- The reveal trace of the neighbour pass has no duplicates: a cell is
revealed the moment it enters the trace and a revealed cell is skipped. -/
lemma processNbrs_rT_nodup (ds : List (Int × Int)) (b : Board) (p : Int × Int) :
    (processNbrs b p ds).2.2.Nodup := by
  induction ds generalizing b with
  | nil => exact List.nodup_nil
  | cons d ds ih =>
    simp only [processNbrs]
    by_cases hc : b.inBounds (p.1 + d.1) (p.2 + d.2) = true ∧
        b.isRevealed (p.1 + d.1) (p.2 + d.2) = false ∧
        b.markState (p.1 + d.1) (p.2 + d.2) ≠ MarkState.Flag
    · rw [if_pos hc]
      have hnotmem : (p.1 + d.1, p.2 + d.2) ∉
          (processNbrs (b.setRevealed (p.1 + d.1) (p.2 + d.2) true) p ds).2.2 := by
        intro hmem
        have h2 := (processNbrs_mem_rT ds _ p _ hmem).2.2.1
        unfold Board.isRevealed at h2
        rw [setRevealed_revealed] at h2
        simp at h2
      by_cases hz : (b.setRevealed (p.1 + d.1) (p.2 + d.2) true).neighborMineCount
          (p.1 + d.1) (p.2 + d.2) = 0
      · rw [if_pos hz]
        exact List.nodup_cons.mpr ⟨hnotmem, ih _⟩
      · rw [if_neg hz]
        exact List.nodup_cons.mpr ⟨hnotmem, ih _⟩
    · rw [if_neg hc]
      exact ih b

/-- A point is enqueued by the neighbour pass exactly when it is revealed
by it and its own neighbour mine count is zero. -/
lemma processNbrs_mem_pT (ds : List (Int × Int)) (b : Board) (p : Int × Int)
    (q : Int × Int) :
    q ∈ (processNbrs b p ds).2.1 ↔
      q ∈ (processNbrs b p ds).2.2 ∧ b.neighborMineCount q.1 q.2 = 0 := by
  induction ds generalizing b with
  | nil => simp [processNbrs]
  | cons d ds ih =>
    simp only [processNbrs]
    by_cases hc : b.inBounds (p.1 + d.1) (p.2 + d.2) = true ∧
        b.isRevealed (p.1 + d.1) (p.2 + d.2) = false ∧
        b.markState (p.1 + d.1) (p.2 + d.2) ≠ MarkState.Flag
    · rw [if_pos hc]
      have hcnt : ∀ x y, (b.setRevealed (p.1 + d.1) (p.2 + d.2) true).neighborMineCount
          x y = b.neighborMineCount x y :=
        fun x y => neighborMineCount_setRevealed b (p.1 + d.1) (p.2 + d.2) true x y
      by_cases hz : (b.setRevealed (p.1 + d.1) (p.2 + d.2) true).neighborMineCount
          (p.1 + d.1) (p.2 + d.2) = 0
      all_goals
        have ih1 := ih (b.setRevealed (p.1 + d.1) (p.2 + d.2) true)
        rw [hcnt] at ih1
      · rw [if_pos hz]
        dsimp only
        have hz' : b.neighborMineCount (p.1 + d.1) (p.2 + d.2) = 0 := by
          rw [← hcnt]
          exact hz
        rw [List.mem_cons, List.mem_cons, ih1]
        constructor
        · rintro (rfl | ⟨hm, hq⟩)
          · exact ⟨Or.inl rfl, hz'⟩
          · exact ⟨Or.inr hm, hq⟩
        · rintro ⟨rfl | hm, hq⟩
          · exact Or.inl rfl
          · exact Or.inr ⟨hm, hq⟩
      · rw [if_neg hz]
        dsimp only
        have hz' : ¬ b.neighborMineCount (p.1 + d.1) (p.2 + d.2) = 0 := by
          rw [← hcnt]
          exact hz
        rw [List.mem_cons, ih1]
        constructor
        · rintro ⟨hm, hq⟩
          exact ⟨Or.inr hm, hq⟩
        · rintro ⟨rfl | hm, hq⟩
          · exact absurd hq hz'
          · exact ⟨hm, hq⟩
    · rw [if_neg hc]
      exact ih b

/-- After the neighbour pass of one point, every one of its in-bounds,
non-flagged neighbours whose offset was processed is revealed. -/
lemma processNbrs_nbr_revealed (ds : List (Int × Int)) (b : Board) (p d : Int × Int)
    (hd : d ∈ ds) (hin : b.inBounds (p.1 + d.1) (p.2 + d.2) = true)
    (hflag : b.markState (p.1 + d.1) (p.2 + d.2) ≠ MarkState.Flag) :
    (processNbrs b p ds).1.isRevealed (p.1 + d.1) (p.2 + d.2) = true := by
  induction ds generalizing b with
  | nil => cases hd
  | cons e ds ih =>
    simp only [processNbrs]
    by_cases hc : b.inBounds (p.1 + e.1) (p.2 + e.2) = true ∧
        b.isRevealed (p.1 + e.1) (p.2 + e.2) = false ∧
        b.markState (p.1 + e.1) (p.2 + e.2) ≠ MarkState.Flag
    · rw [if_pos hc]
      have hrev1 : (b.setRevealed (p.1 + e.1) (p.2 + e.2) true).isRevealed
          (p.1 + e.1) (p.2 + e.2) = true := by
        unfold Board.isRevealed
        rw [setRevealed_revealed]
        simp
      rcases List.mem_cons.mp hd with rfl | hd'
      · by_cases hz : (b.setRevealed (p.1 + d.1) (p.2 + d.2) true).neighborMineCount
            (p.1 + d.1) (p.2 + d.2) = 0
        · rw [if_pos hz]
          exact processNbrs_rev_mono ds _ p _ _ hrev1
        · rw [if_neg hz]
          exact processNbrs_rev_mono ds _ p _ _ hrev1
      · have hin1 : (b.setRevealed (p.1 + e.1) (p.2 + e.2) true).inBounds
            (p.1 + d.1) (p.2 + d.2) = true := by
          rwa [setRevealed_inBounds]
        have hflag1 : (b.setRevealed (p.1 + e.1) (p.2 + e.2) true).markState
            (p.1 + d.1) (p.2 + d.2) ≠ MarkState.Flag := by
          unfold Board.markState
          rwa [setRevealed_mark]
        by_cases hz : (b.setRevealed (p.1 + e.1) (p.2 + e.2) true).neighborMineCount
            (p.1 + e.1) (p.2 + e.2) = 0
        · rw [if_pos hz]
          exact ih _ hd' hin1 hflag1
        · rw [if_neg hz]
          exact ih _ hd' hin1 hflag1
    · rw [if_neg hc]
      rcases List.mem_cons.mp hd with rfl | hd'
      · have hrevd : b.isRevealed (p.1 + d.1) (p.2 + d.2) = true := by
          cases hb : b.isRevealed (p.1 + d.1) (p.2 + d.2) with
          | false => exact absurd ⟨hin, hb, hflag⟩ hc
          | true => rfl
        exact processNbrs_rev_mono ds b p _ _ hrevd
      · exact ih b hd' hin hflag

/-- The cascade loop keeps the board width. -/
lemma cascadeLoop_width (b : Board) (q : List (Int × Int)) :
    (cascadeLoop b q).1.width = b.width := by
  induction b, q using cascadeLoop.induct with
  | case1 b => rw [cascadeLoop]
  | case2 b d ds r1 ih =>
    rw [cascadeLoop]
    dsimp only at ih ⊢
    rw [ih, processNbrs_width]

/-- The cascade loop keeps the board height. -/
lemma cascadeLoop_height (b : Board) (q : List (Int × Int)) :
    (cascadeLoop b q).1.height = b.height := by
  induction b, q using cascadeLoop.induct with
  | case1 b => rw [cascadeLoop]
  | case2 b d ds r1 ih =>
    rw [cascadeLoop]
    dsimp only at ih ⊢
    rw [ih, processNbrs_height]

/-- The cascade loop keeps every mine flag. -/
lemma cascadeLoop_hasMine (b : Board) (q : List (Int × Int)) (x y : Int) :
    ((cascadeLoop b q).1.cells x y).hasMine = (b.cells x y).hasMine := by
  induction b, q using cascadeLoop.induct with
  | case1 b => rw [cascadeLoop]
  | case2 b d ds r1 ih =>
    rw [cascadeLoop]
    dsimp only at ih ⊢
    rw [ih, processNbrs_hasMine]

/-- The cascade loop keeps every mark. -/
lemma cascadeLoop_mark (b : Board) (q : List (Int × Int)) (x y : Int) :
    ((cascadeLoop b q).1.cells x y).mark = (b.cells x y).mark := by
  induction b, q using cascadeLoop.induct with
  | case1 b => rw [cascadeLoop]
  | case2 b d ds r1 ih =>
    rw [cascadeLoop]
    dsimp only at ih ⊢
    rw [ih, processNbrs_mark]

/-- The cascade loop keeps every neighbour mine count. -/
lemma cascadeLoop_count (b : Board) (q : List (Int × Int)) (x y : Int) :
    (cascadeLoop b q).1.neighborMineCount x y = b.neighborMineCount x y :=
  neighborMineCount_congr b (cascadeLoop b q).1 (cascadeLoop_width b q)
    (cascadeLoop_height b q) (fun x y => cascadeLoop_hasMine b q x y) x y

/-- The cascade loop never hides a revealed cell. -/
lemma cascadeLoop_rev_mono (b : Board) (q : List (Int × Int)) (x y : Int)
    (h : b.isRevealed x y = true) : (cascadeLoop b q).1.isRevealed x y = true := by
  induction b, q using cascadeLoop.induct with
  | case1 b => rw [cascadeLoop]; exact h
  | case2 b d ds r1 ih =>
    rw [cascadeLoop]
    dsimp only at ih ⊢
    exact ih (processNbrs_rev_mono mooreOffsets b d x y h)

/-- A cell not on the reveal trace of the cascade loop keeps its revealed
flag. -/
lemma cascadeLoop_rev_frame (b : Board) (q : List (Int × Int)) (x y : Int)
    (h : (x, y) ∉ (cascadeLoop b q).2.2) :
    (cascadeLoop b q).1.isRevealed x y = b.isRevealed x y := by
  induction b, q using cascadeLoop.induct with
  | case1 b => rw [cascadeLoop]
  | case2 b d ds r1 ih =>
    rw [cascadeLoop] at h ⊢
    dsimp only at ih h ⊢
    rw [List.mem_append] at h
    push_neg at h
    rw [ih h.2, processNbrs_rev_frame _ _ _ _ _ h.1]

/-- Every cell on the reveal trace of the cascade loop was unrevealed and
unflagged on entry, lies in bounds, and is revealed in the final board. -/
lemma cascadeLoop_mem_rT (b : Board) (q : List (Int × Int)) (x : Int × Int)
    (h : x ∈ (cascadeLoop b q).2.2) :
    b.inBounds x.1 x.2 = true ∧ b.isRevealed x.1 x.2 = false ∧
      b.markState x.1 x.2 ≠ MarkState.Flag ∧
      (cascadeLoop b q).1.isRevealed x.1 x.2 = true := by
  induction b, q using cascadeLoop.induct with
  | case1 b => rw [cascadeLoop] at h; cases h
  | case2 b d ds r1 ih =>
    rw [cascadeLoop] at h ⊢
    dsimp only at ih h ⊢
    rw [List.mem_append] at h
    rcases h with h | h
    · obtain ⟨_, h1, h2, h3, h4⟩ := processNbrs_mem_rT mooreOffsets b d x h
      refine ⟨h1, h2, h3, ?_⟩
      exact cascadeLoop_rev_mono _ _ _ _ h4
    · obtain ⟨h1, h2, h3, h4⟩ := ih h
      have h1' : (processNbrs b d mooreOffsets).1.inBounds x.1 x.2 = true := h1
      have h2' : (processNbrs b d mooreOffsets).1.isRevealed x.1 x.2 = false := h2
      have h3' : (processNbrs b d mooreOffsets).1.markState x.1 x.2 ≠ MarkState.Flag := h3
      refine ⟨?_, ?_, ?_, h4⟩
      · rwa [processNbrs_inBounds] at h1'
      · cases hb : b.isRevealed x.1 x.2 with
        | false => rfl
        | true =>
          have hm := processNbrs_rev_mono mooreOffsets b d x.1 x.2 hb
          rw [h2'] at hm
          cases hm
      · intro hf
        apply h3'
        unfold Board.markState at hf ⊢
        rw [processNbrs_mark]
        exact hf

/-- The reveal trace of the cascade loop has no duplicates: revealed is
monotone, so no cell is ever revealed twice. -/
lemma cascadeLoop_rT_nodup (b : Board) (q : List (Int × Int)) :
    (cascadeLoop b q).2.2.Nodup := by
  induction b, q using cascadeLoop.induct with
  | case1 b => rw [cascadeLoop]; exact List.nodup_nil
  | case2 b d ds r1 ih =>
    rw [cascadeLoop]
    dsimp only at ih ⊢
    rw [List.nodup_append]
    refine ⟨processNbrs_rT_nodup mooreOffsets b d, ih, ?_⟩
    intro x hx hx'
    have hrev := (processNbrs_mem_rT mooreOffsets b d x hx).2.2.2.2
    have hunrev := (cascadeLoop_mem_rT _ _ x hx').2.1
    rw [hrev] at hunrev
    cases hunrev

/-- The enqueue trace of the cascade loop is a sub-sequence of its reveal
trace. -/
lemma cascadeLoop_pT_sublist (b : Board) (q : List (Int × Int)) :
    (cascadeLoop b q).2.1.Sublist (cascadeLoop b q).2.2 := by
  induction b, q using cascadeLoop.induct with
  | case1 b => rw [cascadeLoop]
  | case2 b d ds r1 ih =>
    rw [cascadeLoop]
    dsimp only at ih ⊢
    exact (processNbrs_pT_sublist mooreOffsets b d).append ih

/-- A cell that the cascade loop reveals and whose neighbour mine count is
zero is also enqueued by the loop. -/
lemma cascadeLoop_mem_pT_of (b : Board) (q : List (Int × Int)) (x : Int × Int)
    (hx : x ∈ (cascadeLoop b q).2.2) (hz : b.neighborMineCount x.1 x.2 = 0) :
    x ∈ (cascadeLoop b q).2.1 := by
  induction b, q using cascadeLoop.induct with
  | case1 b => rw [cascadeLoop] at hx; cases hx
  | case2 b d ds r1 ih =>
    rw [cascadeLoop] at hx ⊢
    dsimp only at ih hx ⊢
    rw [List.mem_append] at hx ⊢
    rcases hx with hx | hx
    · exact Or.inl ((processNbrs_mem_pT mooreOffsets b d x).mpr ⟨hx, hz⟩)
    · refine Or.inr (ih hx ?_)
      rw [processNbrs_count]
      exact hz

/-- Every in-bounds, non-flagged neighbour of a point that was on the
queue or was later enqueued is revealed when the cascade loop finishes. -/
lemma cascadeLoop_nbr_revealed (b : Board) (q : List (Int × Int)) (p d : Int × Int)
    (hp : p ∈ q ∨ p ∈ (cascadeLoop b q).2.1) (hd : d ∈ mooreOffsets)
    (hin : b.inBounds (p.1 + d.1) (p.2 + d.2) = true)
    (hflag : b.markState (p.1 + d.1) (p.2 + d.2) ≠ MarkState.Flag) :
    (cascadeLoop b q).1.isRevealed (p.1 + d.1) (p.2 + d.2) = true := by
  induction b, q using cascadeLoop.induct with
  | case1 b =>
    rw [cascadeLoop] at hp ⊢
    rcases hp with hp | hp <;> cases hp
  | case2 b e ds r1 ih =>
    rw [cascadeLoop] at hp ⊢
    dsimp only at ih hp ⊢
    have hin1 : (processNbrs b e mooreOffsets).1.inBounds (p.1 + d.1) (p.2 + d.2) =
        true := by rwa [processNbrs_inBounds]
    have hflag1 : (processNbrs b e mooreOffsets).1.markState (p.1 + d.1) (p.2 + d.2) ≠
        MarkState.Flag := by
      unfold Board.markState
      rw [processNbrs_mark]
      exact hflag
    rcases hp with hp | hp
    · rcases List.mem_cons.mp hp with rfl | hp'
      · exact cascadeLoop_rev_mono _ _ _ _
          (processNbrs_nbr_revealed mooreOffsets b p d hd hin hflag)
      · exact ih (Or.inl (List.mem_append_left _ hp')) hin1 hflag1
    · rw [List.mem_append] at hp
      rcases hp with hp | hp
      · exact ih (Or.inl (List.mem_append_right _ hp)) hin1 hflag1
      · exact ih (Or.inr hp) hin1 hflag1

/-- The cascade loop enqueues at most as many points as there were
unrevealed in-grid cells on entry. -/
lemma cascadeLoop_measure (b : Board) (q : List (Int × Int)) :
    unrevealedCount (cascadeLoop b q).1 + (cascadeLoop b q).2.1.length ≤
      unrevealedCount b := by
  induction b, q using cascadeLoop.induct with
  | case1 b => rw [cascadeLoop]; simp
  | case2 b d ds r1 ih =>
    rw [cascadeLoop]
    dsimp only at ih ⊢
    have hm := processNbrs_measure mooreOffsets b d
    have ih' : unrevealedCount (cascadeLoop (processNbrs b d mooreOffsets).1
          (ds ++ (processNbrs b d mooreOffsets).2.1)).1 +
        (cascadeLoop (processNbrs b d mooreOffsets).1
          (ds ++ (processNbrs b d mooreOffsets).2.1)).2.1.length ≤
        unrevealedCount (processNbrs b d mooreOffsets).1 := ih
    rw [List.length_append]
    omega

/-- The loss display pass keeps every mine flag. -/
lemma foldRM_hasMine (l : List (Int × Int)) (acc : Board) (x y : Int) :
    ((l.foldl revealMinesStep acc).cells x y).hasMine = (acc.cells x y).hasMine := by
  induction l generalizing acc with
  | nil => rfl
  | cons p l ih =>
    rw [List.foldl_cons]
    rw [ih]
    unfold revealMinesStep
    split
    · exact setRevealed_hasMine ..
    · rfl

/-- The loss display pass keeps every mark. -/
lemma foldRM_mark (l : List (Int × Int)) (acc : Board) (x y : Int) :
    ((l.foldl revealMinesStep acc).cells x y).mark = (acc.cells x y).mark := by
  induction l generalizing acc with
  | nil => rfl
  | cons p l ih =>
    rw [List.foldl_cons]
    rw [ih]
    unfold revealMinesStep
    split
    · exact setRevealed_mark ..
    · rfl

/-- The loss display pass leaves a cell without a mine completely alone. -/
lemma foldRM_nonMine (l : List (Int × Int)) (acc : Board) (x y : Int)
    (h : (acc.cells x y).hasMine = false) :
    (l.foldl revealMinesStep acc).cells x y = acc.cells x y := by
  induction l generalizing acc with
  | nil => rfl
  | cons p l ih =>
    rw [List.foldl_cons]
    have hstep : (revealMinesStep acc p).cells x y = acc.cells x y := by
      unfold revealMinesStep
      split <;> rename_i hm
      · rw [setRevealed_cells, if_neg]
        intro ⟨h1, h2⟩
        subst h1
        subst h2
        unfold Board.isMine at hm
        rw [h] at hm
        cases hm
      · rfl
    have hmine : ((revealMinesStep acc p).cells x y).hasMine = false := by
      rw [hstep]
      exact h
    rw [ih _ hmine, hstep]

/-- The loss display pass never hides a revealed cell. -/
lemma foldRM_rev_mono (l : List (Int × Int)) (acc : Board) (x y : Int)
    (h : (acc.cells x y).revealed = true) :
    ((l.foldl revealMinesStep acc).cells x y).revealed = true := by
  induction l generalizing acc with
  | nil => exact h
  | cons p l ih =>
    rw [List.foldl_cons]
    apply ih
    unfold revealMinesStep
    split
    · rw [setRevealed_revealed]
      split
      · rfl
      · exact h
    · exact h

/-- After the loss display pass every mined coordinate on the walked list
is revealed. -/
lemma foldRM_mine_revealed (l : List (Int × Int)) (acc : Board) (p : Int × Int)
    (hp : p ∈ l) (hm : (acc.cells p.1 p.2).hasMine = true) :
    ((l.foldl revealMinesStep acc).cells p.1 p.2).revealed = true := by
  induction l generalizing acc with
  | nil => cases hp
  | cons e l ih =>
    rw [List.foldl_cons]
    rcases List.mem_cons.mp hp with rfl | hp'
    · apply foldRM_rev_mono
      unfold revealMinesStep Board.isMine
      rw [if_pos hm, setRevealed_revealed, if_pos ⟨rfl, rfl⟩]
    · apply ih _ hp'
      unfold revealMinesStep
      split
      · rw [setRevealed_hasMine]
        exact hm
      · exact hm

/-- Board::allNonMinesRevealed is the win-condition predicate: it holds
exactly when every in-bounds cell without a mine is revealed. -/
lemma allNonMinesRevealed_iff (b : Board) :
    b.allNonMinesRevealed = true ↔
      ∀ x y : Int, b.inBounds x y = true → (b.cells x y).hasMine = false →
        (b.cells x y).revealed = true := by
  unfold Board.allNonMinesRevealed
  rw [List.all_eq_true]
  constructor
  · intro h x y hin hm
    have := h (x, y) (mem_coordList.mpr hin)
    rw [Bool.or_eq_true] at this
    rcases this with hm' | hr
    · rw [hm] at hm'
      cases hm'
    · exact hr
  · intro h p hp
    rw [Bool.or_eq_true]
    cases hm : (b.cells p.1 p.2).hasMine with
    | true => exact Or.inl rfl
    | false => exact Or.inr (h p.1 p.2 (mem_coordList.mp hp) hm)

/-- Describes the cells written by the spec: the Moore neighbourhood of
(row, col) is the set of cells at Chebyshev distance exactly one. -/
def mooreMineCountSpec (b : Board) (row col : Int) : Nat :=
  (coordList b).countP (fun p =>
    decide (max (p.1 - row).natAbs (p.2 - col).natAbs = 1) && (b.cells p.1 p.2).hasMine)

/-- The image of the eight loop offsets around (row, col) is exactly the
set of points at Chebyshev distance one. -/
lemma mem_offsets_image_iff (row col : Int) (q : Int × Int) :
    q ∈ mooreOffsets.map (fun d => (row + d.1, col + d.2)) ↔
      max (q.1 - row).natAbs (q.2 - col).natAbs = 1 := by
  obtain ⟨x, y⟩ := q
  simp only [mooreOffsets, List.map_cons, List.map_nil, List.mem_cons, List.not_mem_nil,
    or_false, Prod.mk.injEq]
  constructor
  · rintro (⟨rfl, rfl⟩ | ⟨rfl, rfl⟩ | ⟨rfl, rfl⟩ | ⟨rfl, rfl⟩ | ⟨rfl, rfl⟩ | ⟨rfl, rfl⟩ |
      ⟨rfl, rfl⟩ | ⟨rfl, rfl⟩) <;> omega
  · intro h
    have hx : x = row - 1 ∨ x = row ∨ x = row + 1 := by omega
    have hy : y = col - 1 ∨ y = col ∨ y = col + 1 := by omega
    rcases hx with rfl | rfl | rfl <;> rcases hy with rfl | rfl | rfl <;> omega

/-- The image of the eight loop offsets around a fixed centre has no
duplicate points. -/
lemma offsets_image_nodup (row col : Int) :
    (mooreOffsets.map (fun d => (row + d.1, col + d.2))).Nodup := by
  refine List.Nodup.map ?_ (by decide)
  intro a b hab
  rw [Prod.mk.injEq] at hab
  obtain ⟨h1, h2⟩ := hab
  obtain ⟨a1, a2⟩ := a
  obtain ⟨b1, b2⟩ := b
  simp only [Prod.mk.injEq]
  omega

/-- Board::neighborMineCount agrees with the specification count over the
Moore neighbourhood: the number of in-grid mined cells at Chebyshev
distance exactly one. -/
lemma neighborMineCount_eq_spec (b : Board) (row col : Int) :
    b.neighborMineCount row col = mooreMineCountSpec b row col := by
  unfold Board.neighborMineCount mooreMineCountSpec
  have himg : mooreOffsets.countP
      (fun d => b.inBounds (row + d.1) (col + d.2) && b.isMine (row + d.1) (col + d.2)) =
      (mooreOffsets.map (fun d => (row + d.1, col + d.2))).countP
        (fun p => b.inBounds p.1 p.2 && b.isMine p.1 p.2) := by
    rw [List.countP_map]
    rfl
  rw [himg, List.countP_eq_length_filter, List.countP_eq_length_filter]
  apply List.Perm.length_eq
  rw [List.perm_ext_iff_of_nodup ((offsets_image_nodup row col).filter _)
    ((nodup_coordList b).filter _)]
  intro q
  rw [List.mem_filter, List.mem_filter, mem_offsets_image_iff, mem_coordList]
  unfold Board.isMine
  constructor
  · rintro ⟨hcheb, hq⟩
    rw [Bool.and_eq_true] at hq
    refine ⟨hq.1, ?_⟩
    rw [Bool.and_eq_true]
    exact ⟨by simpa using hcheb, hq.2⟩
  · rintro ⟨hin, hq⟩
    rw [Bool.and_eq_true] at hq
    refine ⟨by simpa using hq.1, ?_⟩
    rw [Bool.and_eq_true]
    exact ⟨hin, hq.2⟩

/-- Board::neighborMineCount never exceeds the eight offsets it inspects. -/
lemma neighborMineCount_le_eight (b : Board) (row col : Int) :
    b.neighborMineCount row col ≤ 8 := by
  unfold Board.neighborMineCount
  calc mooreOffsets.countP _ ≤ mooreOffsets.length := List.countP_le_length _
  _ = 8 := rfl

/-- Board::setMine only touches the addressed cell's mine flag. -/
lemma setMine_hasMine (b : Board) (row col : Int) (m : Bool) (x y : Int) :
    ((b.setMine row col m).cells x y).hasMine =
      if x = row ∧ y = col then m else (b.cells x y).hasMine := by
  rw [setMine_cells]
  split <;> rfl

/-- Board::setMine keeps every revealed flag. -/
lemma setMine_revealed (b : Board) (row col : Int) (m : Bool) (x y : Int) :
    ((b.setMine row col m).cells x y).revealed = (b.cells x y).revealed := by
  rw [setMine_cells]
  split <;> rename_i h
  · obtain ⟨rfl, rfl⟩ := h
    rfl
  · rfl

/-- Board::setMine keeps every mark. -/
lemma setMine_mark (b : Board) (row col : Int) (m : Bool) (x y : Int) :
    ((b.setMine row col m).cells x y).mark = (b.cells x y).mark := by
  rw [setMine_cells]
  split <;> rename_i h
  · obtain ⟨rfl, rfl⟩ := h
    rfl
  · rfl

/-- Placing a mine on an in-grid cell without one raises the mined-cell
count by exactly one. -/
lemma minedCount_setMine (b : Board) (row col : Int)
    (hin : b.inBounds row col = true) (hm : (b.cells row col).hasMine = false) :
    minedCount b + 1 = minedCount (b.setMine row col true) := by
  unfold minedCount
  rw [show coordList (b.setMine row col true) = coordList b from rfl]
  apply countP_flip _ _ (row, col) _ (nodup_coordList b) (mem_coordList.mpr hin)
  · intro y hy hyx
    simp only [setMine_hasMine]
    rw [if_neg]
    intro ⟨h1, h2⟩
    exact hyx (Prod.ext h1 h2)
  · simp [setMine_hasMine]
  · exact hm

/-- After resetting, no cell holds a mine. -/
lemma minedCount_resetAll (b : Board) : minedCount (resetAll b) = 0 := by
  unfold minedCount
  rw [List.countP_eq_zero]
  intro p _
  exact fun h => nomatch h

/-- Running the placement loop to completion yields a board with exactly
mineCount mines, and it touches no revealed flag and no mark. -/
lemma placeMines_spec (fuel : Nat) :
    ∀ (b : Board) (stream : Nat → Nat) (k placed : Nat) (b' : Board),
      placeMines stream fuel b k placed = some b' →
      minedCount b = placed →
      placed ≤ b.mineCount →
      b.mineCount ≤ b.width * b.height →
      minedCount b' = b.mineCount ∧
        (∀ x y, (b'.cells x y).revealed = (b.cells x y).revealed) ∧
        (∀ x y, (b'.cells x y).mark = (b.cells x y).mark) ∧
        b'.width = b.width ∧ b'.height = b.height ∧ b'.mineCount = b.mineCount := by
  induction fuel with
  | zero =>
    intro b stream k placed b' hrun hcount hle hcap
    rw [placeMines] at hrun
    split at hrun
    · cases hrun
    · rename_i hlt
      cases hrun
      exact ⟨by omega, fun x y => rfl, fun x y => rfl, rfl, rfl, rfl⟩
  | succ fuel ih =>
    intro b stream k placed b' hrun hcount hle hcap
    rw [placeMines] at hrun
    split at hrun <;> rename_i hlt
    · have hwpos : 0 < b.width := by
        rcases Nat.eq_zero_or_pos b.width with hw | hw
        · rw [hw] at hcap
          omega
        · exact hw
      have hhpos : 0 < b.height := by
        rcases Nat.eq_zero_or_pos b.height with hh | hh
        · rw [hh] at hcap
          omega
        · exact hh
      have hinb : b.inBounds ((stream k % b.height : Nat) : Int)
          ((stream (k + 1) % b.width : Nat) : Int) = true := by
        unfold Board.inBounds
        have h1 := Nat.mod_lt (stream k) hhpos
        have h2 := Nat.mod_lt (stream (k + 1)) hwpos
        simp only [decide_eq_true_eq]
        omega
      dsimp only at hrun
      split at hrun <;> rename_i hmine
      · obtain ⟨h1, h2, h3, h4, h5, h6⟩ := ih b stream (k + 2) placed b' hrun hcount hle hcap
        exact ⟨h1, h2, h3, h4, h5, h6⟩
      · have hnew : minedCount (b.setMine ((stream k % b.height : Nat) : Int)
            ((stream (k + 1) % b.width : Nat) : Int) true) = placed + 1 := by
          rw [← minedCount_setMine _ _ _ hinb (by
            unfold Board.isMine at hmine
            cases hm : (b.cells ((stream k % b.height : Nat) : Int)
                ((stream (k + 1) % b.width : Nat) : Int)).hasMine
            · rfl
            · exact absurd hm hmine), hcount]
        obtain ⟨h1, h2, h3, h4, h5, h6⟩ := ih _ stream (k + 2) (placed + 1) b' hrun hnew
          (show placed + 1 ≤ b.mineCount by omega) hcap
        refine ⟨h1, ?_, ?_, h4, h5, h6⟩
        · intro x y
          rw [h2 x y, setMine_revealed]
        · intro x y
          rw [h3 x y, setMine_mark]
    · cases hrun
      exact ⟨by omega, fun x y => rfl, fun x y => rfl, rfl, rfl, rfl⟩

/-- Describes, following the spec, the connected zero-count region of a
target cell together with its border: a cell is reachable when a chain of
Moore-adjacent steps leads to it from the target, every link of the chain
starting from a cell with zero neighbour mine count, and every visited
cell lying in bounds. -/
inductive Reach (b : Board) (t : Int × Int) : Int × Int → Prop where
  | refl : Reach b t t
  | step (p q : Int × Int) : Reach b t p → b.neighborMineCount p.1 p.2 = 0 →
      (q.1 - p.1, q.2 - p.2) ∈ mooreOffsets → b.inBounds q.1 q.2 = true → Reach b t q

/-- Reachability only looks at dimensions and mine flags, so it transfers
between boards that agree on them. -/
lemma Reach_congr (b b' : Board) (hw : b'.width = b.width) (hh : b'.height = b.height)
    (hm : ∀ x y, (b'.cells x y).hasMine = (b.cells x y).hasMine) (t q : Int × Int)
    (h : Reach b t q) : Reach b' t q := by
  induction h with
  | refl => exact Reach.refl
  | step p q hp hz hoff hqin ih =>
    refine Reach.step p q ih ?_ hoff ?_
    · rw [neighborMineCount_congr b b' hw hh hm]
      exact hz
    · unfold Board.inBounds at hqin ⊢
      rw [hw, hh]
      exact hqin

/-- A cell with zero neighbour mine count has no mined in-bounds Moore
neighbour. -/
lemma count_zero_nbr_nonmine (b : Board) (p : Int × Int)
    (hz : b.neighborMineCount p.1 p.2 = 0) (e : Int × Int) (he : e ∈ mooreOffsets)
    (hin : b.inBounds (p.1 + e.1) (p.2 + e.2) = true) :
    (b.cells (p.1 + e.1) (p.2 + e.2)).hasMine = false := by
  unfold Board.neighborMineCount at hz
  rw [List.countP_eq_zero] at hz
  have := hz e he
  rw [Bool.and_eq_true] at this
  push_neg at this
  cases hm : (b.cells (p.1 + e.1) (p.2 + e.2)).hasMine with
  | false => rfl
  | true => exact absurd hm (this hin)

/-- When every queued point has zero neighbour mine count, the cascade
loop reveals no mined cell. -/
lemma cascadeLoop_rT_nonmine (b : Board) (q : List (Int × Int))
    (hq : ∀ p ∈ q, b.neighborMineCount p.1 p.2 = 0) :
    ∀ x ∈ (cascadeLoop b q).2.2, (b.cells x.1 x.2).hasMine = false := by
  induction b, q using cascadeLoop.induct with
  | case1 b =>
    rw [cascadeLoop]
    intro x hx
    cases hx
  | case2 b d ds r1 ih =>
    rw [cascadeLoop]
    dsimp only at ih ⊢
    intro x hx
    rw [List.mem_append] at hx
    rcases hx with hx | hx
    · obtain ⟨⟨e, he, rfl⟩, hin, _, _, _⟩ := processNbrs_mem_rT mooreOffsets b d x hx
      exact count_zero_nbr_nonmine b d (hq d (List.mem_cons_self ..)) e he hin
    · have hq' : ∀ p ∈ ds ++ (processNbrs b d mooreOffsets).2.1,
          (processNbrs b d mooreOffsets).1.neighborMineCount p.1 p.2 = 0 := by
        intro p hp
        rw [processNbrs_count]
        rw [List.mem_append] at hp
        rcases hp with hp | hp
        · exact hq p (List.mem_cons_of_mem _ hp)
        · exact ((processNbrs_mem_pT mooreOffsets b d p).mp hp).2
      have := ih hq' x hx
      rwa [processNbrs_hasMine] at this

/-- Completeness of the cascade loop: starting from a queue holding an
already revealed zero-count target, every reachable cell gets revealed,
provided no reachable cell is flagged and no reachable zero-count cell
other than the target was revealed beforehand. -/
lemma cascadeLoop_complete (b : Board) (t : Int × Int)
    (hrevt : b.isRevealed t.1 t.2 = true)
    (hflag : ∀ q, Reach b t q → b.markState q.1 q.2 ≠ MarkState.Flag)
    (hpre : ∀ q, Reach b t q → q ≠ t → b.neighborMineCount q.1 q.2 = 0 →
      b.isRevealed q.1 q.2 = false) :
    ∀ q, Reach b t q → (cascadeLoop b [t]).1.isRevealed q.1 q.2 = true := by
  intro q hq
  induction hq with
  | refl => exact cascadeLoop_rev_mono _ _ _ _ hrevt
  | step p q hp hpz hoff hqin ih =>
    have hpq : p ∈ [t] ∨ p ∈ (cascadeLoop b [t]).2.1 := by
      by_cases hpt : p = t
      · exact Or.inl (by rw [hpt]; exact List.mem_cons_self ..)
      · have hunrev : b.isRevealed p.1 p.2 = false := hpre p hp hpt hpz
        have hmem : p ∈ (cascadeLoop b [t]).2.2 := by
          by_contra hnm
          have := cascadeLoop_rev_frame b [t] p.1 p.2 (by
            intro hm
            exact hnm (by
              obtain ⟨x, y⟩ := p
              exact hm))
          rw [ih, hunrev] at this
          cases this
        exact Or.inr (cascadeLoop_mem_pT_of b [t] p hmem hpz)
    have hd : (q.1 - p.1, q.2 - p.2) ∈ mooreOffsets := hoff
    have h1 : p.1 + (q.1 - p.1) = q.1 := by ring
    have h2 : p.2 + (q.2 - p.2) = q.2 := by ring
    have := cascadeLoop_nbr_revealed b [t] p (q.1 - p.1, q.2 - p.2) hpq hd
      (by rw [h1, h2]; exact hqin)
      (by rw [h1, h2]; exact hflag q (Reach.step p q hp hpz hoff hqin))
    rwa [h1, h2] at this

/-- Example board: one row of three safe cells with a flag on the middle
cell (used to exercise the cascade against a flag cutting the region). -/
def exFlagCut : Board :=
  { width := 3, height := 1, mineCount := 0,
    cells := fun r c =>
      if r = 0 ∧ c = 1 then ⟨false, false, MarkState.Flag⟩ else Cell.reset }

/-- Example board: a single safe hidden cell. -/
def exOne : Board :=
  { width := 1, height := 1, mineCount := 0, cells := fun _ _ => Cell.reset }

/-- Example board: one row of two safe hidden cells. -/
def exTwo : Board :=
  { width := 2, height := 1, mineCount := 0, cells := fun _ _ => Cell.reset }

/-- Example board: one row of two cells that both hold a mine. -/
def exTwoMines : Board :=
  { width := 2, height := 1, mineCount := 2,
    cells := fun _ _ => ⟨true, false, MarkState.None⟩ }

/-- Example board: a single revealed safe cell. -/
def exRevealed : Board :=
  { width := 1, height := 1, mineCount := 0,
    cells := fun _ _ => ⟨false, true, MarkState.None⟩ }

/-- Example board: two columns, the right cell mined, the left revealed
(used for the win-transition witness). -/
def exAlmostWon : Board :=
  { width := 2, height := 1, mineCount := 1,
    cells := fun r c =>
      if r = 0 ∧ c = 1 then ⟨true, false, MarkState.None⟩
      else ⟨false, false, MarkState.None⟩ }

/-- Example board: a 2 by 2 grid in a scrambled state, used to witness the
full reset performed by Board::initialize. -/
def exDirty : Board :=
  { width := 2, height := 2, mineCount := 1,
    cells := fun _ _ => ⟨true, true, MarkState.Question⟩ }

/-- Example board: a 3 by 3 grid with a single central mine. -/
def exCentreMine : Board :=
  { width := 3, height := 3, mineCount := 1,
    cells := fun r c =>
      if r = 1 ∧ c = 1 then ⟨true, false, MarkState.None⟩ else Cell.reset }

/-- Example QVector contents: a single row holding a single default cell. -/
def exQCells : List (List Cell) := [[Cell.reset]]

/-- Reading the addressed cell's mark back after Board::setMarkState. -/
lemma markState_setMarkState (b : Board) (row col : Int) (s : MarkState) :
    (b.setMarkState row col s).markState row col = s := by
  unfold Board.markState
  rw [setMarkState_cells, if_pos ⟨rfl, rfl⟩]

/-- Board::setMarkState keeps every revealed flag. -/
lemma setMarkState_revealed (b : Board) (row col : Int) (s : MarkState) (x y : Int) :
    ((b.setMarkState row col s).cells x y).revealed = (b.cells x y).revealed := by
  rw [setMarkState_cells]
  split <;> rename_i h
  · obtain ⟨rfl, rfl⟩ := h
    rfl
  · rfl

/-- Board::setMarkState keeps every mine flag. -/
lemma setMarkState_hasMine (b : Board) (row col : Int) (s : MarkState) (x y : Int) :
    ((b.setMarkState row col s).cells x y).hasMine = (b.cells x y).hasMine := by
  rw [setMarkState_cells]
  split <;> rename_i h
  · obtain ⟨rfl, rfl⟩ := h
    rfl
  · rfl

/-- The mark cycle of eventFilter returns to its start after three steps. -/
lemma cycleMark_three (m : MarkState) : cycleMark (cycleMark (cycleMark m)) = m := by
  cases m <;> rfl

/-- The right-click handler writes the cycled mark into the addressed
cell. -/
lemma markState_cycleMarkCmd (b : Board) (row col : Int) :
    (cycleMarkCmd b row col).markState row col = cycleMark (b.markState row col) :=
  markState_setMarkState ..

/-- On a safe cell, MinesweeperWindow::revealCell takes the non-mine
branch: reveal, cascade on a zero count, then the win check. -/
lemma revealCell_eq_safe (b : Board) (row col : Int) (hm : b.isMine row col = false) :
    revealCell b row col =
      (let b1 := b.setRevealed row col true;
       let b2 := if b1.neighborMineCount row col = 0
         then (cascadeReveal b1 row col).1 else b1;
       (b2, if b2.allNonMinesRevealed = true then Outcome.Win else Outcome.Continue)) := by
  unfold revealCell
  rw [if_neg (by rw [hm]; exact fun h => nomatch h)]

/-- The outcome component of the non-mine branch decodes the win check. -/
lemma outcome_ite (b2 : Board) :
    ((if b2.allNonMinesRevealed = true then Outcome.Win else Outcome.Continue) =
        Outcome.Win ↔ b2.allNonMinesRevealed = true) ∧
    ((if b2.allNonMinesRevealed = true then Outcome.Win else Outcome.Continue) =
        Outcome.Continue ↔ b2.allNonMinesRevealed = false) := by
  cases hb : b2.allNonMinesRevealed <;> simp [hb]

/-- C2: for every reveal of a non-mine cell, the reported outcome is Win
exactly when allNonMinesRevealed holds on the board after the reveal and
Continue otherwise, and allNonMinesRevealed is true iff every cell without
a mine is revealed. -/
theorem C2_win_iff_all_safe_revealed (b : Board) (row col : Int)
    (hm : b.isMine row col = false) :
    ((revealCell b row col).2 = Outcome.Win ↔
      (revealCell b row col).1.allNonMinesRevealed = true) ∧
    ((revealCell b row col).2 = Outcome.Continue ↔
      (revealCell b row col).1.allNonMinesRevealed = false) ∧
    ∀ b' : Board, b'.allNonMinesRevealed = true ↔
      ∀ x y : Int, b'.inBounds x y = true → b'.isMine x y = false →
        b'.isRevealed x y = true := by
  have he := revealCell_eq_safe b row col hm
  refine ⟨?_, ?_, fun b' => allNonMinesRevealed_iff b'⟩
  · rw [he]
    dsimp only
    exact (outcome_ite _).1
  · rw [he]
    dsimp only
    exact (outcome_ite _).2

/-- C2 witness: revealing the last safe cell of a 1 by 2 board with one
mine reports Win exactly because allNonMinesRevealed became true. -/
theorem C2_win_iff_all_safe_revealed_witness :
    (revealCell exAlmostWon 0 0).2 = Outcome.Win ↔
      (revealCell exAlmostWon 0 0).1.allNonMinesRevealed = true :=
  (C2_win_iff_all_safe_revealed exAlmostWon 0 0 (by decide)).1

/-- C3: whenever Board::initialize returns, the board carries exactly
mineCount mined cells, and every cell is unrevealed and unmarked. -/
theorem C3_initialize_spec (b : Board) (stream : Nat → Nat) (fuel : Nat) (b' : Board)
    (hcap : b.mineCount < b.width * b.height)
    (hrun : initializeBoard b stream fuel = some b') :
    minedCount b' = b.mineCount ∧ (∀ x y : Int, b'.isRevealed x y = false) ∧
      (∀ x y : Int, b'.markState x y = MarkState.None) := by
  unfold initializeBoard at hrun
  obtain ⟨h1, h2, h3, _, _, _⟩ := placeMines_spec fuel (resetAll b) stream 0 0 b' hrun
    (minedCount_resetAll b) (Nat.zero_le _)
    (show b.mineCount ≤ b.width * b.height by omega)
  refine ⟨h1, ?_, ?_⟩
  · intro x y
    unfold Board.isRevealed
    rw [h2]
    rfl
  · intro x y
    unfold Board.markState
    rw [h3]
    rfl

/-- C3 witness: on a scrambled 2 by 2 board with one mine and the zero
stream, initialization succeeds in one round and satisfies the
post-state. -/
theorem C3_initialize_spec_witness :
    minedCount ((initializeBoard exDirty (fun _ => 0) 1).getD exDirty) = 1 ∧
      ((initializeBoard exDirty (fun _ => 0) 1).getD exDirty).isRevealed 0 0 = false ∧
      ((initializeBoard exDirty (fun _ => 0) 1).getD exDirty).markState 0 0 =
        MarkState.None := by
  obtain ⟨h1, h2, h3⟩ := C3_initialize_spec exDirty (fun _ => 0) 1
    ((initializeBoard exDirty (fun _ => 0) 1).getD exDirty) (by decide) rfl
  exact ⟨h1, h2 0 0, h3 0 0⟩

/-- C5: the board accessors index m_cells[row][col] without any bounds
check; on the QVector model an out-of-range coordinate has no defined
result at all (Qt leaves operator[] undefined there), so no error is
reported — the engine does not fail fast. -/
theorem C5_unchecked_indexing :
    isMineQ exQCells (-1) 0 = none ∧ isMineQ exQCells 0 (-1) = none ∧
      isRevealedQ exQCells 1 0 = none ∧ markStateQ exQCells 0 1 = none ∧
      isMineQ exQCells 0 0 = some false := by
  decide

/-- C7: Board::neighborMineCount equals the number of in-grid mined cells
at Chebyshev distance exactly one and always lies between 0 and 8. -/
theorem C7_neighbor_count_correct (b : Board) (row col : Int)
    (hin : b.inBounds row col = true) :
    b.neighborMineCount row col = mooreMineCountSpec b row col ∧
      b.neighborMineCount row col ≤ 8 :=
  ⟨neighborMineCount_eq_spec b row col, neighborMineCount_le_eight b row col⟩

/-- C7 witness: the corner of a 3 by 3 board with a central mine. -/
theorem C7_neighbor_count_correct_witness :
    exCentreMine.inBounds 0 0 = true ∧
      (exCentreMine.neighborMineCount 0 0 = mooreMineCountSpec exCentreMine 0 0 ∧
        exCentreMine.neighborMineCount 0 0 ≤ 8) :=
  ⟨by decide, C7_neighbor_count_correct exCentreMine 0 0 (by decide)⟩

/-- C9: on a hidden cell the right-click handler cycles the mark through
None, Flag, Question and back, and three cycles restore the mark. -/
theorem C9_mark_cycle (b : Board) (row col : Int)
    (hin : b.inBounds row col = true) (hrev : b.isRevealed row col = false) :
    (cycleMarkCmd b row col).markState row col = cycleMark (b.markState row col) ∧
      (cycleMark MarkState.None = MarkState.Flag ∧
        cycleMark MarkState.Flag = MarkState.Question ∧
        cycleMark MarkState.Question = MarkState.None) ∧
      (cycleMarkCmd (cycleMarkCmd (cycleMarkCmd b row col) row col) row col).markState
        row col = b.markState row col := by
  refine ⟨markState_cycleMarkCmd .., ⟨rfl, rfl, rfl⟩, ?_⟩
  rw [markState_cycleMarkCmd, markState_cycleMarkCmd, markState_cycleMarkCmd,
    cycleMark_three]

/-- C9 witness: the hidden single cell of the 1 by 1 board. -/
theorem C9_mark_cycle_witness :
    (cycleMarkCmd exOne 0 0).markState 0 0 = cycleMark (exOne.markState 0 0) ∧
      (cycleMark MarkState.None = MarkState.Flag ∧
        cycleMark MarkState.Flag = MarkState.Question ∧
        cycleMark MarkState.Question = MarkState.None) ∧
      (cycleMarkCmd (cycleMarkCmd (cycleMarkCmd exOne 0 0) 0 0) 0 0).markState 0 0 =
        exOne.markState 0 0 :=
  C9_mark_cycle exOne 0 0 (by decide) rfl

/-- C10: a cascade started on a zero-count cell reveals no mine: mine
flags are untouched and every cell it newly reveals is safe. -/
theorem C10_cascade_avoids_mines (b : Board) (row col : Int)
    (hz : b.neighborMineCount row col = 0) :
    (∀ p ∈ (cascadeReveal b row col).2.2, b.isMine p.1 p.2 = false) ∧
      (∀ x y : Int, (cascadeReveal b row col).1.isMine x y = b.isMine x y) ∧
      (∀ x y : Int, b.isRevealed x y = false →
        (cascadeReveal b row col).1.isRevealed x y = true → b.isMine x y = false) := by
  have hq : ∀ p ∈ [((row : Int), (col : Int))], b.neighborMineCount p.1 p.2 = 0 := by
    intro p hp
    rcases List.mem_cons.mp hp with rfl | hp'
    · exact hz
    · cases hp'
  have hmain := cascadeLoop_rT_nonmine b [(row, col)] hq
  refine ⟨fun p hp => hmain p hp, fun x y => cascadeLoop_hasMine .., ?_⟩
  intro x y hunrev hrev
  have hrev' : (cascadeLoop b [(row, col)]).1.isRevealed x y = true := hrev
  have hmem : (x, y) ∈ (cascadeLoop b [(row, col)]).2.2 := by
    by_contra hnm
    have := cascadeLoop_rev_frame b [(row, col)] x y hnm
    rw [hrev', hunrev] at this
    cases this
  exact hmain (x, y) hmem

/-- C10 witness: on a mine-free 1 by 2 board the cascade from the left
cell reveals the right cell, which is indeed safe. -/
theorem C10_cascade_avoids_mines_witness : exTwo.isMine 0 1 = false :=
  (C10_cascade_avoids_mines exTwo 0 0 (by decide)).1 (0, 1) (by
    simp [cascadeReveal, cascadeLoop, processNbrs, mooreOffsets, Board.inBounds,
      Board.isRevealed, Board.markState, Board.setRevealed, Board.setCell,
      Board.neighborMineCount, Board.isMine, Cell.reset, exTwo])

/-- C4 counterexample: on a 1 by 2 board with two mines, revealing the
left mine also flips the right mine's revealed flag (the gameOver loss
pass), so some other cell's state does change. -/
theorem C4_counterexample :
    exTwoMines.isMine 0 0 = true ∧ exTwoMines.isRevealed 0 0 = false ∧
      exTwoMines.markState 0 0 ≠ MarkState.Flag ∧
      exTwoMines.isRevealed 0 1 = false ∧
      (revealCell exTwoMines 0 0).2 = Outcome.Loss ∧
      (revealCell exTwoMines 0 0).1.isRevealed 0 1 = true := by
  decide

/-- C4 amended: revealing an in-bounds, hidden, unflagged mine reports
Loss, reveals that cell, performs no cascade, leaves every mine flag and
mark alone and every non-mine cell fully untouched; every other in-grid
mined cell is however also set revealed by the end-of-round display
pass. -/
theorem C4_reveal_mine_loss (b : Board) (row col : Int)
    (hin : b.inBounds row col = true) (hm : b.isMine row col = true)
    (hrev : b.isRevealed row col = false) (hflag : b.markState row col ≠ MarkState.Flag) :
    (revealCell b row col).2 = Outcome.Loss ∧
      (revealCell b row col).1.isRevealed row col = true ∧
      (∀ x y : Int, (revealCell b row col).1.isMine x y = b.isMine x y) ∧
      (∀ x y : Int, (revealCell b row col).1.markState x y = b.markState x y) ∧
      (∀ x y : Int, ¬(x = row ∧ y = col) → b.isMine x y = false →
        (revealCell b row col).1.cells x y = b.cells x y) ∧
      (∀ x y : Int, b.inBounds x y = true → b.isMine x y = true →
        (revealCell b row col).1.isRevealed x y = true) := by
  have he : revealCell b row col =
      (gameOverLoss (b.setRevealed row col true), Outcome.Loss) := by
    unfold revealCell
    rw [if_pos hm]
  rw [he]
  dsimp only
  unfold gameOverLoss
  refine ⟨rfl, ?_, ?_, ?_, ?_, ?_⟩
  · apply foldRM_rev_mono
    rw [setRevealed_revealed, if_pos ⟨rfl, rfl⟩]
  · intro x y
    unfold Board.isMine
    rw [foldRM_hasMine, setRevealed_hasMine]
  · intro x y
    unfold Board.markState
    rw [foldRM_mark, setRevealed_mark]
  · intro x y hne hxm
    have hb1 : (b.setRevealed row col true).cells x y = b.cells x y := by
      rw [setRevealed_cells, if_neg hne]
    rw [foldRM_nonMine, hb1]
    rw [hb1]
    unfold Board.isMine at hxm
    cases hc : (b.cells x y).hasMine with
    | false => rfl
    | true => exact absurd hc (by rw [hxm]; exact fun h => nomatch h)
  · intro x y hxin hxm
    unfold Board.isRevealed
    exact foldRM_mine_revealed _ _ (x, y) (mem_coordList.mpr hxin)
      (by rw [setRevealed_hasMine]; exact hxm)

/-- C4 witness: the two-mine board satisfies every hypothesis, and the
reveal of the left mine reports Loss. -/
theorem C4_reveal_mine_loss_witness : (revealCell exTwoMines 0 0).2 = Outcome.Loss :=
  (C4_reveal_mine_loss exTwoMines 0 0 (by decide) rfl rfl (by decide)).1

/-- C8 counterexample: right-clicking an already revealed cell still
cycles its stored mark from None to Flag, so the command is not a no-op
on a revealed cell. -/
theorem C8_counterexample :
    exRevealed.isRevealed 0 0 = true ∧ exRevealed.markState 0 0 = MarkState.None ∧
      (cycleMarkCmd exRevealed 0 0).markState 0 0 = MarkState.Flag := by
  decide

/-- C8 amended: a left click on an already revealed cell is a strict
no-op returning a Continue outcome; a right click on a revealed cell is
not a no-op — it still cycles the stored mark — although it changes no
revealed flag and no mine flag. -/
theorem C8_already_revealed (b : Board) (row col : Int)
    (hrev : b.isRevealed row col = true) :
    onCellLeftClicked b row col = (b, Outcome.Continue) ∧
      (cycleMarkCmd b row col).markState row col = cycleMark (b.markState row col) ∧
      (∀ x y : Int, (cycleMarkCmd b row col).isRevealed x y = b.isRevealed x y) ∧
      (∀ x y : Int, (cycleMarkCmd b row col).isMine x y = b.isMine x y) := by
  refine ⟨?_, markState_cycleMarkCmd .., fun x y => setMarkState_revealed ..,
    fun x y => setMarkState_hasMine ..⟩
  unfold onCellLeftClicked
  rw [if_pos (Or.inl hrev)]

/-- C8 witness: the revealed single-cell board. -/
theorem C8_already_revealed_witness :
    onCellLeftClicked exRevealed 0 0 = (exRevealed, Outcome.Continue) :=
  (C8_already_revealed exRevealed 0 0 rfl).1

/-- C6 counterexample: cascading from an unrevealed start cell on the
mine-free 1 by 2 board enqueues the start cell twice, so not every cell
is processed at most once for arbitrary starting cells. -/
theorem C6_counterexample :
    exTwo.isRevealed 0 0 = false ∧
      (cascadeReveal exTwo 0 0).2.1 = [(0, 0), (0, 1), (0, 0)] ∧
      ¬ (cascadeReveal exTwo 0 0).2.1.Nodup := by
  have h : (cascadeReveal exTwo 0 0).2.1 = [(0, 0), (0, 1), (0, 0)] := by
    simp [cascadeReveal, cascadeLoop, processNbrs, mooreOffsets, Board.inBounds,
      Board.isRevealed, Board.markState, Board.setRevealed, Board.setCell,
      Board.neighborMineCount, Board.isMine, Cell.reset, exTwo]
  refine ⟨rfl, h, ?_⟩
  rw [h]
  decide

/-- C6 amended: when the starting cell is already revealed — as it always
is when revealCell invokes the cascade — the cascade enqueues and reveals
each cell at most once, and the total number of enqueues is bounded by
the number of unrevealed cells plus one, which also bounds the work of
the terminating loop. -/
theorem C6_cascade_each_cell_once (b : Board) (startRow startCol : Int)
    (hrev : b.isRevealed startRow startCol = true) :
    (cascadeReveal b startRow startCol).2.1.Nodup ∧
      (cascadeReveal b startRow startCol).2.2.Nodup ∧
      (cascadeReveal b startRow startCol).2.1.length ≤ unrevealedCount b + 1 := by
  unfold cascadeReveal
  dsimp only
  refine ⟨?_, cascadeLoop_rT_nodup .., ?_⟩
  · rw [List.nodup_cons]
    constructor
    · intro hmem
      have hsub := cascadeLoop_pT_sublist b [(startRow, startCol)]
      have hfls : b.isRevealed startRow startCol = false :=
        (cascadeLoop_mem_rT b [(startRow, startCol)] _ (hsub.subset hmem)).2.1
      rw [hrev] at hfls
      cases hfls
    · exact (cascadeLoop_pT_sublist b [(startRow, startCol)]).nodup
        (cascadeLoop_rT_nodup b [(startRow, startCol)])
  · simp only [List.length_cons]
    have := cascadeLoop_measure b [(startRow, startCol)]
    omega

/-- C6 witness: the revealed single-cell board. -/
theorem C6_cascade_each_cell_once_witness :
    (cascadeReveal exRevealed 0 0).2.1.Nodup :=
  (C6_cascade_each_cell_once exRevealed 0 0 rfl).1

/-- C1 counterexample: on a mine-free 1 by 3 row with a flag on the middle
cell, the right cell belongs to the connected zero-count region of the
left target and is not flagged, yet revealing the left cell leaves it
hidden — the flag cuts the cascade, so the full region is not revealed. -/
theorem C1_counterexample :
    exFlagCut.isMine 0 0 = false ∧ exFlagCut.neighborMineCount 0 0 = 0 ∧
      Reach exFlagCut (0, 0) (0, 2) ∧ exFlagCut.neighborMineCount 0 2 = 0 ∧
      exFlagCut.markState 0 2 ≠ MarkState.Flag ∧
      (revealCell exFlagCut 0 0).1.isRevealed 0 2 = false := by
  refine ⟨rfl, by decide, ?_, by decide, by decide, ?_⟩
  · exact Reach.step (0, 1) (0, 2)
      (Reach.step (0, 0) (0, 1) Reach.refl (by decide) (by decide) (by decide))
      (by decide) (by decide) (by decide)
  · simp [revealCell, cascadeReveal, cascadeLoop, processNbrs, mooreOffsets,
      Board.inBounds, Board.isRevealed, Board.markState, Board.setRevealed,
      Board.setCell, Board.neighborMineCount, Board.isMine, Cell.reset, exFlagCut]

/-- C1 amended: for every reveal of a safe zero-count target, two facts,
each under its own premises.  First, provided no cell of the connected
zero-count region or its border is flagged and no zero-count region cell
other than the target was revealed beforehand, the reveal exposes every
cell of the region together with its border — question marks included.
Second, with no proviso about flags or prior reveals at all, a flagged
cell other than the target keeps its revealed flag: the cascade never
reveals a flag, whether or not that flag lies inside the region. -/
theorem C1_cascade_reveals_region (b : Board) (t : Int × Int)
    (hin : b.inBounds t.1 t.2 = true)
    (hmine : b.isMine t.1 t.2 = false)
    (hzero : b.neighborMineCount t.1 t.2 = 0) :
    ((∀ q, Reach b t q → b.markState q.1 q.2 ≠ MarkState.Flag) →
      (∀ q, Reach b t q → q ≠ t → b.neighborMineCount q.1 q.2 = 0 →
        b.isRevealed q.1 q.2 = false) →
      ∀ q, Reach b t q → (revealCell b t.1 t.2).1.isRevealed q.1 q.2 = true) ∧
      (∀ q, q ≠ t → b.markState q.1 q.2 = MarkState.Flag →
        (revealCell b t.1 t.2).1.isRevealed q.1 q.2 = b.isRevealed q.1 q.2) := by
  have hb1 : (revealCell b t.1 t.2).1 =
      (cascadeLoop (b.setRevealed t.1 t.2 true) [(t.1, t.2)]).1 := by
    rw [revealCell_eq_safe b t.1 t.2 hmine]
    dsimp only
    rw [if_pos (by rw [neighborMineCount_setRevealed]; exact hzero)]
    rfl
  constructor
  · intro hflag hpre q hq
    have hto : ∀ q, Reach b t q → Reach (b.setRevealed t.1 t.2 true) t q := fun q hq =>
      Reach_congr b (b.setRevealed t.1 t.2 true) rfl rfl
        (fun x y => setRevealed_hasMine b t.1 t.2 true x y) t q hq
    have hfrom : ∀ q, Reach (b.setRevealed t.1 t.2 true) t q → Reach b t q := fun q hq =>
      Reach_congr (b.setRevealed t.1 t.2 true) b rfl rfl
        (fun x y => (setRevealed_hasMine b t.1 t.2 true x y).symm) t q hq
    have hrevt : (b.setRevealed t.1 t.2 true).isRevealed t.1 t.2 = true := by
      unfold Board.isRevealed
      rw [setRevealed_revealed, if_pos ⟨rfl, rfl⟩]
    have hflag1 : ∀ q, Reach (b.setRevealed t.1 t.2 true) t q →
        (b.setRevealed t.1 t.2 true).markState q.1 q.2 ≠ MarkState.Flag := by
      intro q hq hf
      apply hflag q (hfrom q hq)
      unfold Board.markState at hf ⊢
      rw [setRevealed_mark] at hf
      exact hf
    have hpre1 : ∀ q, Reach (b.setRevealed t.1 t.2 true) t q → q ≠ t →
        (b.setRevealed t.1 t.2 true).neighborMineCount q.1 q.2 = 0 →
        (b.setRevealed t.1 t.2 true).isRevealed q.1 q.2 = false := by
      intro q hq hne hz
      have hb : b.isRevealed q.1 q.2 = false := hpre q (hfrom q hq) hne (by
        rw [← neighborMineCount_setRevealed b t.1 t.2 true]
        exact hz)
      unfold Board.isRevealed at hb ⊢
      rw [setRevealed_revealed, if_neg (fun hqq => hne (Prod.ext hqq.1 hqq.2))]
      exact hb
    rw [hb1]
    exact cascadeLoop_complete (b.setRevealed t.1 t.2 true) t hrevt hflag1 hpre1
      q (hto q hq)
  · intro q hne hqflag
    rw [hb1]
    have hnotrT : q ∉ (cascadeLoop (b.setRevealed t.1 t.2 true) [(t.1, t.2)]).2.2 := by
      intro hmem
      apply (cascadeLoop_mem_rT _ _ q hmem).2.2.1
      unfold Board.markState
      rw [setRevealed_mark]
      exact hqflag
    have hfr := cascadeLoop_rev_frame (b.setRevealed t.1 t.2 true) [(t.1, t.2)]
      q.1 q.2 hnotrT
    rw [hfr]
    unfold Board.isRevealed
    rw [setRevealed_revealed, if_neg (fun hqq => hne (Prod.ext hqq.1 hqq.2))]

/-- C1 witness: on the single-cell mine-free board the target (its whole
region) gets revealed; and on the flag-cut 1 by 3 row — where a flag does
lie inside the region, so the completeness premises fail — the flagged
middle cell still keeps its revealed flag. -/
theorem C1_cascade_reveals_region_witness :
    (revealCell exOne 0 0).1.isRevealed 0 0 = true ∧
      (revealCell exFlagCut 0 0).1.isRevealed 0 1 = exFlagCut.isRevealed 0 1 :=
  ⟨(C1_cascade_reveals_region exOne (0, 0) (by decide) rfl (by decide)).1
      (fun q _ hf => nomatch hf) (fun q _ _ _ => rfl) (0, 0) Reach.refl,
    (C1_cascade_reveals_region exFlagCut (0, 0) (by decide) rfl (by decide)).2
      (0, 1) (by decide) (by decide)⟩
